import Mathlib

/-!
Shallow embedding of the vlfs large-file-storage engine (src/vlfs.py) and
proofs about its specification.  File contents are modelled as lists of
bytes, the SHA-256 digest and the zstandard codec are abstracted as
function parameters (the claims under study do not depend on any property
of the concrete hash or codec), the filesystem pieces touched by each
operation are passed as explicit state, and Python dictionaries are
modelled as insertion-ordered association lists.
-/

namespace VLFS

/-- Raw file content: a list of byte values. -/
abbrev Bytes := List Nat

/-- JSON scalar values as loaded by Python's `json.load` (restricted to the
scalars relevant to the index's `version` field; floats are not modelled). -/
inductive JVal where
  | num (n : Int)
  | str (s : String)
  | jbool (b : Bool)
  | null
deriving DecidableEq

/-- Python `==` on JSON scalars: numbers compare numerically and Python
`bool` is a subclass of `int`, so `True == 1` and `False == 0` hold. -/
def pyEqJ : JVal → JVal → Bool
  | .num a, .num b => a == b
  | .str a, .str b => a == b
  | .jbool a, .jbool b => a == b
  | .jbool a, .num b => (if a then (1 : Int) else 0) == b
  | .num a, .jbool b => a == (if b then (1 : Int) else 0)
  | .null, .null => true
  | _, _ => false

/-- An index entry as stored in `index.json`.  Every field is optional
because entries are plain JSON dicts read back with `.get` (legacy entries
may lack fields, e.g. `remote`). -/
structure IndexEntry where
  hash : Option String := none
  size : Option Nat := none
  compressed_size : Option Nat := none
  mtime : Option Int := none
  object_key : Option String := none
  remote : Option String := none
deriving DecidableEq

/-- The parsed top-level index file: `{"version": ..., "entries": {...}}`.
`version` is `none` when the key is absent (Python `data.get("version")`
returning `None`). -/
structure IndexData where
  version : Option JVal := none
  entries : List (String × IndexEntry) := []
deriving DecidableEq

/-- Python `data.get("version") == 1`, where an absent key (`None`) never
equals `1`. -/
def pyVersionIsOne : Option JVal → Bool
  | some v => pyEqJ v (.num 1)
  | none => false

/-- Python dict lookup on an insertion-ordered association list (keys are
unique in a dict, so first match is the match). -/
def dictLookup : List (String × α) → String → Option α
  | [], _ => none
  | p :: ps, k => if p.1 = k then some p.2 else dictLookup ps k

/-- Python `base.update(upd)`: keys of `base` keep their position with the
updated value, keys new in `upd` are appended in `upd`'s order. -/
def dictUpdate (base upd : List (String × α)) : List (String × α) :=
  (base.map fun p =>
    match dictLookup upd p.1 with
    | some v => (p.1, v)
    | none => p) ++
  upd.filter fun p => (dictLookup base p.1).isNone

/-- `str.lower()` (character-wise; exact for the ASCII hex digests the
engine produces). -/
def pyLower (s : String) : String :=
  String.mk (s.data.map Char.toLower)

/-- `shard_path` from src/vlfs.py: lowercase the digest, return it raw when
shorter than 4 characters, else `ab/cd/abcd...`. -/
def shard_path (hex_digest : String) : String :=
  let hexLower := pyLower hex_digest
  if hexLower.length < 4 then hexLower
  else (hexLower.take 2) ++ "/" ++ ((hexLower.drop 2).take 2) ++ "/" ++ hexLower

/-- The local object cache: compressed blob by object key (presence of the
key models presence of the file `<cache>/objects/<key>`). -/
abbrev Cache := String → Option Bytes

section Codec

variable (hashFn : Bytes → String) (compressFn decompressFn : Bytes → Bytes)

/-- `store_object` from src/vlfs.py, acting on the source file's content:
hash, derive the key, short-circuit if the object file already exists,
otherwise compress and write.  Returns the key and the updated cache. -/
def store_object (content : Bytes) (cache : Cache) : String × Cache :=
  let object_key := shard_path (hashFn content)
  match cache object_key with
  | some _ => (object_key, cache)
  | none =>
      (object_key,
       fun k => if k = object_key then some (compressFn content) else cache k)

/-- `load_object` from src/vlfs.py: read the blob and decompress; `none`
models the `OSError` raised when the blob file is absent. -/
def load_object (object_key : String) (cache : Cache) : Option Bytes :=
  (cache object_key).map decompressFn

end Codec

/-- The zero-value index returned by `read_index` when `index.json` is
absent. -/
def zeroIndex : IndexData := { version := some (.num 1), entries := [] }

/-- `read_index` from src/vlfs.py, over the optional parsed content of
`index.json`: missing file yields the zero-value index; otherwise the
version guard `data.get("version") != 1` (Python equality) raises
`VLFSIndexError`, modelled as `Except.error`. -/
def read_index (file : Option IndexData) : Except String IndexData :=
  match file with
  | none => .ok zeroIndex
  | some data =>
      if pyVersionIsOne data.version then .ok data
      else .error "Unsupported index version"

/-- State of the on-disk index file together with the number of times it
has been rewritten (each `write_index` call is one atomic rewrite). -/
structure IndexFsState where
  file : Option IndexData
  writes : Nat
deriving DecidableEq

/-- `update_index_entries` from src/vlfs.py: no-op on an empty patch, else
(under the index lock) re-read the index, merge the patch with
`entries.update(updates)`, and write once. -/
def update_index_entries (st : IndexFsState) (updates : List (String × IndexEntry)) :
    Except String IndexFsState :=
  if updates.isEmpty then .ok st
  else do
    let index ← read_index st.file
    let merged := dictUpdate index.entries updates
    .ok { file := some { index with entries := merged }, writes := st.writes + 1 }

/-- A workspace file as seen by the materializer: either its content can be
read and hashed, or `hash_file` raises an `OSError`/`IOError` (modelled by
`unreadable`; the file exists in both cases). -/
inductive WsFile where
  | readable (content : Bytes)
  | unreadable
deriving DecidableEq

/-- The workspace: optional file by repository-relative path (`none` models
an absent file, i.e. `file_path.exists()` is false). -/
abbrev Workspace := String → Option WsFile

/-- Running state of `materialize_workspace`'s loop: the workspace plus the
three result accumulators `files_written`, `bytes_written`,
`skipped_files`. -/
structure MatState where
  ws : Workspace
  written : Nat
  bytesWritten : Nat
  skipped : List String

section Materialize

variable (hashFn : Bytes → String) (decompressFn : Bytes → Bytes)

/-- The tail of one `materialize_workspace` iteration: load the object from
cache (silently skipping the entry when the blob is absent), then either
count it (dry run) or atomically write it into the workspace. -/
def matLoadWrite (cache : Cache) (dry_run : Bool) (rel_path object_key : String)
    (st : MatState) : MatState :=
  match load_object decompressFn object_key cache with
  | none => st
  | some data =>
      if dry_run then
        { st with written := st.written + 1,
                  bytesWritten := st.bytesWritten + data.length }
      else
        { st with ws := fun p => if p = rel_path then some (.readable data) else st.ws p,
                  written := st.written + 1,
                  bytesWritten := st.bytesWritten + data.length }

/-- One iteration of `materialize_workspace`'s loop over an index entry,
mirroring the source's branches: falsy `object_key` → skip; existing
destination whose hash matches → skip; existing, differing, not `force` →
record in `skipped`; hash failure, `force`, or absent destination → load
from cache and write. -/
def matStep (cache : Cache) (force dry_run : Bool) (st : MatState)
    (pe : String × IndexEntry) : MatState :=
  match pe.2.object_key with
  | none => st
  | some object_key =>
      if object_key = "" then st
      else
        match st.ws pe.1 with
        | some (.readable content) =>
            if some (hashFn content) = pe.2.hash then st
            else if force = false then { st with skipped := st.skipped ++ [pe.1] }
            else matLoadWrite decompressFn cache dry_run pe.1 object_key st
        | some .unreadable =>
            matLoadWrite decompressFn cache dry_run pe.1 object_key st
        | none =>
            matLoadWrite decompressFn cache dry_run pe.1 object_key st

/-- `materialize_workspace` from src/vlfs.py: fold the per-entry step over
the index's entries, starting from the given workspace and zeroed
counters. -/
def materialize_workspace (entries : List (String × IndexEntry)) (ws : Workspace)
    (cache : Cache) (force dry_run : Bool) : MatState :=
  entries.foldl (matStep hashFn decompressFn cache force dry_run)
    { ws := ws, written := 0, bytesWritten := 0, skipped := [] }

end Materialize

/-- A workspace file as seen by `compute_status`: the `stat` data compared
against the index, and the content (`none` models an `OSError`/`IOError`
raised while hashing an existing file). -/
structure StatFile where
  size : Nat
  mtime : Int
  content : Option Bytes
deriving DecidableEq

/-- The workspace as seen by `compute_status`. -/
abbrev StatWorkspace := String → Option StatFile

/-- First loop of `compute_status`: indexed paths whose workspace file is
absent. -/
def status_missing (entries : List (String × IndexEntry)) (ws : StatWorkspace) :
    List String :=
  entries.filterMap fun pe =>
    match ws pe.1 with
    | none => some pe.1
    | some _ => none

/-- First loop of `compute_status`: the `to_hash` queue — present files
whose live `stat` size or mtime differs from the indexed values (an entry
lacking the field compares unequal, as Python `stat != None`). -/
def status_to_hash (entries : List (String × IndexEntry)) (ws : StatWorkspace) :
    List (String × IndexEntry) :=
  entries.filterMap fun pe =>
    match ws pe.1 with
    | none => none
    | some f =>
        if some f.size ≠ pe.2.size ∨ some f.mtime ≠ pe.2.mtime then some pe
        else none

/-- Second loop of `compute_status`: rehash every queued file (the parallel
and the inline hashing branch produce the same per-path result, so the
width-8 threshold only selects the execution strategy); a hashing error
classifies the path as modified, otherwise the path is modified exactly
when the recomputed hash differs from the indexed hash. -/
def status_modified (hashFn : Bytes → String) (entries : List (String × IndexEntry))
    (ws : StatWorkspace) : List String :=
  (status_to_hash entries ws).filterMap fun pe =>
    match ws pe.1 with
    | none => none
    | some f =>
        match f.content with
        | none => some pe.1
        | some c => if some (hashFn c) ≠ pe.2.hash then some pe.1 else none

/-- The `missing`/`modified` classification computed by `compute_status`
from src/vlfs.py.  (The `extra` component — the untracked-pattern
directory walk — is not touched by any claim and is not modelled.) -/
def compute_status (hashFn : Bytes → String) (entries : List (String × IndexEntry))
    (ws : StatWorkspace) : List String × List String :=
  (status_missing entries ws, status_modified hashFn entries ws)

/-- Append `item` to the group of `remote`, creating the group at the end
in insertion order when absent (Python `dict` behaviour in
`group_objects_by_remote`). -/
def groupInsert : List (String × List (String × String)) → String →
    String × String → List (String × List (String × String))
  | [], remote, item => [(remote, [item])]
  | g :: gs, remote, item =>
      if g.1 = remote then (g.1, g.2 ++ [item]) :: gs
      else g :: groupInsert gs remote item

/-- `group_objects_by_remote` from src/vlfs.py: map each entry with a
truthy `object_key` to its remote's group (missing `remote` field defaults
to `"r2"`), as an insertion-ordered list of `(remote, (object_key,
rel_path) list)` pairs.  One iteration of its loop (`groupStep`): skip
entries with a falsy `object_key`, else append `(object_key, rel_path)`
to the group of the entry's remote. -/
def groupStep (groups : List (String × List (String × String)))
    (pe : String × IndexEntry) : List (String × List (String × String)) :=
  match pe.2.object_key with
  | none => groups
  | some object_key =>
      if object_key = "" then groups
      else groupInsert groups (pe.2.remote.getD "r2") (object_key, pe.1)

/-- See `groupStep`. -/
def group_objects_by_remote (entries : List (String × IndexEntry)) :
    List (String × List (String × String)) :=
  entries.foldl groupStep []

/-- The list of object/path pairs grouped under `remote` (empty when the
group is absent). -/
def groupGet (groups : List (String × List (String × String))) (remote : String) :
    List (String × String) :=
  (dictLookup groups remote).getD []

/-- The mark set of `cmd_clean`: every truthy `object_key` referenced by
some index entry. -/
def referencedKeys (entries : List (String × IndexEntry)) : List String :=
  entries.filterMap fun pe =>
    match pe.2.object_key with
    | none => none
    | some k => if k = "" then none else some k

/-- The sweep of `cmd_clean`: walk every blob of the object store and keep
exactly those whose key is not referenced by the index (`to_delete`). -/
def clean_to_delete (entries : List (String × IndexEntry))
    (cacheKeys : List String) : List String :=
  cacheKeys.filter fun k => ¬ k ∈ referencedKeys entries

/-- `cmd_clean` from src/vlfs.py, reduced to its effect on the object
store: the orphan list and the keys remaining on disk afterwards
(deletion happens only when orphans exist, the run is not a dry run, and
either `--yes` was passed or the interactive prompt was confirmed). -/
def cmd_clean (entries : List (String × IndexEntry)) (cacheKeys : List String)
    (dry_run yes confirmed : Bool) : List String × List String :=
  let toDelete := clean_to_delete entries cacheKeys
  if toDelete.isEmpty then (toDelete, cacheKeys)
  else if dry_run then (toDelete, cacheKeys)
  else if yes = false ∧ confirmed = false then (toDelete, cacheKeys)
  else (toDelete, cacheKeys.filter fun k => k ∈ referencedKeys entries)

/-- Outcomes of the external collaborators used by a push: Drive token
presence and success of the two upload paths (the wire transfer itself is
out of scope and abstracted as a boolean outcome). -/
structure PushEnv where
  driveToken : Bool
  driveUploadOk : Bool
  r2UploadOk : Bool

/-- State threaded through a push: the local object cache and the index
file with its rewrite counter. -/
structure PushState where
  cache : Cache
  indexFs : IndexFsState

section Push

variable (hashFn : Bytes → String) (compressFn : Bytes → Bytes)

/-- `_push_single_file_collect` from src/vlfs.py for a file at
repository-relative path `rel` with the given content and mtime: store
into the cache, build the index entry (remote `"gdrive"` when `private`,
else `"r2"`), then upload unless `dry_run`; failures (missing Drive token,
failed upload) return result 1 with no entry, success returns result 0
with the singleton entry patch. -/
def push_single_file_collect (env : PushEnv) (priv dry_run : Bool) (rel : String)
    (content : Bytes) (mtime : Int) (st : PushState) :
    (Nat × Option (String × IndexEntry)) × PushState :=
  let stored := store_object hashFn compressFn content st.cache
  let object_key := stored.1
  let cache' := stored.2
  let entry : IndexEntry :=
    { hash := some (hashFn content),
      size := some content.length,
      compressed_size := some ((cache' object_key).getD []).length,
      mtime := some mtime,
      object_key := some object_key,
      remote := some (if priv then "gdrive" else "r2") }
  let st' : PushState := { st with cache := cache' }
  if dry_run then ((0, some (rel, entry)), st')
  else if priv then
    if env.driveToken = false then ((1, none), st')
    else if env.driveUploadOk = false then ((1, none), st')
    else ((0, some (rel, entry)), st')
  else if env.r2UploadOk = false then ((1, none), st')
  else ((0, some (rel, entry)), st')

/-- The directory branch of `cmd_push` from src/vlfs.py: push each file
collecting the entry patches (`updates.update(entry)`) and the failures,
return 1 when any file failed, and otherwise perform exactly one batched
`update_index_entries` call (skipped on dry runs and when there is nothing
to update).  One iteration of its loop (`pushLoopStep`) accumulates the
collected entry patches, the failed paths, and the threaded state. -/
def pushLoopStep (env : PushEnv) (priv dry_run : Bool)
    (acc : List (String × IndexEntry) × List String × PushState)
    (f : String × Bytes × Int) :
    List (String × IndexEntry) × List String × PushState :=
  let r := push_single_file_collect hashFn compressFn env priv dry_run
    f.1 f.2.1 f.2.2 acc.2.2
  if r.1.1 ≠ 0 then (acc.1, acc.2.1 ++ [f.1], r.2)
  else
    match r.1.2 with
    | some e => (dictUpdate acc.1 [e], acc.2.1, r.2)
    | none => (acc.1, acc.2.1, r.2)

/-- See `pushLoopStep`. -/
def cmd_push_dir (env : PushEnv) (files : List (String × Bytes × Int))
    (priv dry_run : Bool) (st : PushState) : Except String (Int × PushState) :=
  let looped := files.foldl (pushLoopStep hashFn compressFn env priv dry_run)
    ([], [], st)
  let updates := looped.1
  let failed := looped.2.1
  let st' := looped.2.2
  if failed.isEmpty = false then .ok (1, st')
  else if dry_run = false ∧ updates.isEmpty = false then do
    let fs ← update_index_entries st'.indexFs updates
    .ok (0, { st' with indexFs := fs })
  else .ok (0, st')

end Push

/-- The messages printed by `cmd_pull` and `_download_remote_group`, one
constructor per print site with its numeric payloads (byte-size strings,
which go through float formatting, are elided). -/
inductive PullMsg where
  | errIndex
  | noFiles
  | errValidate
  | errDownload (remote : String)
  | dryDownloadHttp (n : Nat)
  | downloadingHttp (n : Nat)
  | dryDownload (n : Nat) (remote : String)
  | downloading (n : Nat) (remote : String)
  | skipDriveNoAuth
  | skipDriveCI
  | skippedLocalMods (n : Nat)
  | dryWrote (files : Nat) (bytes : Nat)
  | wrote (files : Nat) (bytes : Nat)
deriving DecidableEq

/-- `has_drive_token()` as observed by `_download_remote_group`: a token is
present, absent, or the check raises `RuntimeError` (CI environment). -/
inductive DriveTokenState where
  | present
  | absent
  | raisesCI
deriving DecidableEq

/-- The external collaborators of a pull: the configured public R2 URL,
the Drive token state, the result of `validate_r2_connection`, and the
three download paths, each returning the updated cache and its transfer
count or a transfer error. -/
structure PullEnv where
  r2PublicUrl : Option String
  driveToken : DriveTokenState
  r2Valid : Bool
  r2HttpFetch : List String → Cache → Except String (Cache × Nat)
  r2Fetch : List String → Cache → Except String (Cache × Nat)
  driveFetch : List String → Cache → Except String (Cache × Nat)

/-- `_download_remote_group` from src/vlfs.py: compute the keys missing
from the local cache, short-circuit when none; use the HTTP path for `r2`
with a public URL; for `gdrive` without a usable token print a skip notice
and return count 0 instead of failing; otherwise delegate to the
authenticated (or fallback HTTP) download path. -/
def download_remote_group (env : PullEnv) (remote : String) (keys : List String)
    (cache : Cache) (dry_run : Bool) : Except String (Cache × Nat × List PullMsg) :=
  let missing := keys.filter fun k => (cache k).isNone
  if missing.isEmpty then .ok (cache, 0, [])
  else if remote = "r2" ∧ env.r2PublicUrl.isSome then
    if dry_run then .ok (cache, missing.length, [.dryDownloadHttp missing.length])
    else do
      let r ← env.r2HttpFetch missing cache
      .ok (r.1, r.2, [.downloadingHttp missing.length])
  else if dry_run then .ok (cache, missing.length, [.dryDownload missing.length remote])
  else if remote = "gdrive" then
    match env.driveToken with
    | .absent => .ok (cache, 0, [.downloading missing.length remote, .skipDriveNoAuth])
    | .raisesCI => .ok (cache, 0, [.downloading missing.length remote, .skipDriveCI])
    | .present => do
        let r ← env.driveFetch missing cache
        .ok (r.1, r.2, [.downloading missing.length remote])
  else if env.r2PublicUrl.isNone then do
    let r ← env.r2Fetch missing cache
    .ok (r.1, r.2, [.downloading missing.length remote])
  else do
    let r ← env.r2HttpFetch missing cache
    .ok (r.1, r.2, [.downloading missing.length remote])

/-- The observable result of `cmd_pull`: exit code, printed messages, and
the final cache and workspace. -/
structure PullResult where
  exitCode : Int
  msgs : List PullMsg
  cache : Cache
  ws : Workspace

section Pull

variable (hashFn : Bytes → String) (decompressFn : Bytes → Bytes)

/-- `cmd_pull` from src/vlfs.py: read the index (a version error aborts
with exit 1), short-circuit on an empty index, group entries by remote,
validate the R2 connection only when the `r2` group needs the
authenticated path, download each remote group in order (a transfer or
configuration error aborts with exit 1; a missing Drive token merely
skips), then materialize the whole index once and report. -/
def cmd_pull (env : PullEnv) (indexFile : Option IndexData) (ws : Workspace)
    (cache : Cache) (force dry_run : Bool) : PullResult :=
  match read_index indexFile with
  | .error _ => ⟨1, [.errIndex], cache, ws⟩
  | .ok index =>
    if index.entries.isEmpty then ⟨0, [.noFiles], cache, ws⟩
    else
      let groups := group_objects_by_remote index.entries
      if dry_run = false ∧ (dictLookup groups "r2").isSome ∧ env.r2PublicUrl.isNone
          ∧ env.r2Valid = false then
        ⟨1, [.errValidate], cache, ws⟩
      else
        let downloaded := groups.foldl
          (fun (acc : Except PullResult (Cache × Nat × List PullMsg)) g =>
            match acc with
            | .error r => .error r
            | .ok (c, n, msgs) =>
                match download_remote_group env g.1 (g.2.map (·.1)) c dry_run with
                | .error _ => .error ⟨1, msgs ++ [.errDownload g.1], c, ws⟩
                | .ok (c', n', msgs') => .ok (c', n + n', msgs ++ msgs'))
          (.ok (cache, 0, []))
        match downloaded with
        | .error r => r
        | .ok (cache', _, msgs) =>
            let mat := materialize_workspace hashFn decompressFn index.entries ws
              cache' force dry_run
            let msgs := msgs ++
              (if mat.skipped.isEmpty then []
               else [.skippedLocalMods mat.skipped.length]) ++
              [if dry_run then .dryWrote mat.written mat.bytesWritten
               else .wrote mat.written mat.bytesWritten]
            ⟨0, msgs, cache', mat.ws⟩

end Pull

/-- The source's literal string for what the spec calls the "primary"
remote label. -/
def primaryLabel : String := "r2"

/-- The source's literal string for what the spec calls the "private"
remote label. -/
def privateLabel : String := "gdrive"

/-- A concrete injective stand-in digest function used only to instantiate
witnesses (the engine's claims do not depend on properties of SHA-256). -/
def demoHash (b : Bytes) : String := toString b

/-- A concrete reversible stand-in codec for witnesses. -/
def demoCompress (b : Bytes) : Bytes := 0 :: b

/-- Inverse of `demoCompress`. -/
def demoDecompress (b : Bytes) : Bytes := b.drop 1

/-- The index of the spec's mixed-remote pull scenario: one `r2` and one
`gdrive` entry (mirroring tests/unit/test_pull_skip.py). -/
def pullDemoEntries : List (String × IndexEntry) :=
  [("file_r2.bin",
    { hash := some "h1", compressed_size := some 100,
      object_key := some "ab/cd/r2h", remote := some "r2" }),
   ("file_gdrive.bin",
    { hash := some "h2", compressed_size := some 200,
      object_key := some "ef/gh/gdh", remote := some "gdrive" })]

/-- The pull environment of that scenario: public R2 URL configured, no
Drive token, HTTP download writing the compressed blob for every requested
key. -/
def pullDemoEnv : PullEnv :=
  { r2PublicUrl := some "https://example.com/vlfs",
    driveToken := .absent,
    r2Valid := true,
    r2HttpFetch := fun keys cache =>
      .ok ((fun k => if k ∈ keys then some (demoCompress [7, 7]) else cache k),
           keys.length),
    r2Fetch := fun _ cache => .ok (cache, 0),
    driveFetch := fun _ cache => .ok (cache, 0) }

/-- The index entry of the spec's materializer-safety scenario: cached
content `[50]` (the spec's `"v2"`), so its hash under `demoHash` is
`"[50]"`, stored under object key `"kk"`. -/
def matDemoEntry : IndexEntry := { hash := some "[50]", object_key := some "kk" }

/-- A workspace holding a locally modified file at `"P"` with content
`[49, 49]` (the spec's `"v1-modified"`), which does not hash-match
`matDemoEntry`. -/
def matDemoWs : Workspace :=
  fun q => if q = "P" then some (.readable [49, 49]) else none

/-- A workspace whose file at `"P"` exists but cannot be read or hashed. -/
def matDemoWsU : Workspace :=
  fun q => if q = "P" then some .unreadable else none

/-- A cache holding the compressed object for `matDemoEntry`. -/
def matDemoCache : Cache :=
  fun q => if q = "kk" then some (demoCompress [50]) else none

/-- An index entry whose mtime fingerprint is stale relative to
`csDemoWs` (indexed mtime 9 vs live 5), forcing a rehash. -/
def csDemoEntry : IndexEntry :=
  { hash := some "H", size := some 1, mtime := some 9 }

/-- A status-view workspace whose file at `"a"` exists with matching size
but changed mtime, and whose content cannot be read (hashing raises). -/
def csDemoWs : StatWorkspace :=
  fun q => if q = "a" then some { size := 1, mtime := 5, content := none }
           else none

/-- Running `cmd_pull` on that scenario from an empty workspace and cache. -/
def pullDemoRun : PullResult :=
  cmd_pull demoHash demoDecompress pullDemoEnv
    (some { version := some (.num 1), entries := pullDemoEntries })
    (fun _ => none) (fun _ => none) false false

theorem pyLower_length (s : String) : (pyLower s).length = s.length := by
  simp [pyLower, String.length_mk]

theorem dictLookup_append (l1 l2 : List (String × α)) (k : String) :
    dictLookup (l1 ++ l2) k = (dictLookup l1 k).or (dictLookup l2 k) := by
  induction l1 with
  | nil => simp [dictLookup]
  | cons p ps ih =>
      by_cases h : p.1 = k
      · simp [dictLookup, h]
      · simp [dictLookup, h, ih]

theorem dictLookup_map_update (upd base : List (String × α)) (k : String) :
    dictLookup
      (base.map fun p =>
        match dictLookup upd p.1 with
        | some v => (p.1, v)
        | none => p) k
    = match dictLookup base k with
      | none => none
      | some v0 => some ((dictLookup upd k).getD v0) := by
  induction base with
  | nil => simp [dictLookup]
  | cons b bs ih =>
      by_cases h : b.1 = k
      · cases hu : dictLookup upd b.1 with
        | none => simp [dictLookup, hu, h, h ▸ hu]
        | some v => simp [dictLookup, hu, h, h ▸ hu]
      · cases hfb : dictLookup upd b.1 with
        | none => simp [dictLookup, hfb, h, ih]
        | some v => simp [dictLookup, hfb, h, ih]

theorem dictLookup_filter_not_in_base (base upd : List (String × α)) (k : String)
    (h : dictLookup base k = none) :
    dictLookup (upd.filter fun p => (dictLookup base p.1).isNone) k
      = dictLookup upd k := by
  induction upd with
  | nil => rfl
  | cons a t ih =>
      by_cases ha : a.1 = k
      · have hkeep : (dictLookup base a.1).isNone = true := by
          rw [ha, h]; rfl
        rw [List.filter_cons, if_pos hkeep]
        simp [dictLookup, ha]
      · cases hkeep : (dictLookup base a.1).isNone with
        | true =>
            rw [List.filter_cons, if_pos hkeep]
            simp [dictLookup, ha, ih]
        | false =>
            rw [List.filter_cons, if_neg (by simp [hkeep])]
            simp [dictLookup, ha, ih]

theorem dictLookup_dictUpdate (base upd : List (String × α)) (k : String) :
    dictLookup (dictUpdate base upd) k
      = (dictLookup upd k).or (dictLookup base k) := by
  unfold dictUpdate
  rw [dictLookup_append, dictLookup_map_update]
  cases hb : dictLookup base k with
  | none =>
      rw [dictLookup_filter_not_in_base base upd k hb]
      cases hu : dictLookup upd k <;> simp
  | some v0 =>
      cases hu : dictLookup upd k <;> simp [hu]

/-- C9: `shard_path` is a pure function that lowercases its argument;
digests of length at least 4 become
`first-two "/" next-two "/" whole`, shorter digests are returned raw, and
the three concrete examples of the spec hold. -/
theorem shard_path_spec :
    (∀ d : String, 4 ≤ d.length →
      shard_path d = (pyLower d).take 2 ++ "/" ++ ((pyLower d).drop 2).take 2
        ++ "/" ++ pyLower d)
    ∧ (∀ d : String, d.length < 4 → shard_path d = pyLower d)
    ∧ shard_path "abcdef1234567890" = "ab/cd/abcdef1234567890"
    ∧ shard_path "AB12" = "ab/12/ab12"
    ∧ shard_path "ab" = "ab" := by
  refine ⟨?_, ?_, by decide, by decide, by decide⟩
  · intro d hd
    unfold shard_path
    rw [if_neg]
    rw [pyLower_length]
    omega
  · intro d hd
    unfold shard_path
    rw [if_pos]
    rw [pyLower_length]
    omega

theorem shard_path_spec_witness :
    (4 ≤ ("abcd" : String).length
      ∧ shard_path "abcd" = (pyLower "abcd").take 2 ++ "/"
          ++ ((pyLower "abcd").drop 2).take 2 ++ "/" ++ pyLower "abcd")
    ∧ (("xyz" : String).length < 4 ∧ shard_path "xyz" = pyLower "xyz") :=
  ⟨⟨by decide, shard_path_spec.1 "abcd" (by decide)⟩,
   ⟨by decide, shard_path_spec.2.1 "xyz" (by decide)⟩⟩

theorem store_object_hit (hashFn : Bytes → String) (compressFn : Bytes → Bytes)
    (content : Bytes) (cache : Cache) (blob : Bytes)
    (h : cache (shard_path (hashFn content)) = some blob) :
    store_object hashFn compressFn content cache
      = (shard_path (hashFn content), cache) := by
  simp only [store_object]
  rw [h]

theorem store_object_miss (hashFn : Bytes → String) (compressFn : Bytes → Bytes)
    (content : Bytes) (cache : Cache)
    (h : cache (shard_path (hashFn content)) = none) :
    store_object hashFn compressFn content cache
      = (shard_path (hashFn content),
         fun k => if k = shard_path (hashFn content) then some (compressFn content)
                  else cache k) := by
  simp only [store_object]
  rw [h]

/-- C6: `store_object` is idempotent and deduplicating — the key depends
only on the content, a second store of identical bytes returns the same
key and leaves the cache untouched, the blob is present after the first
store, and no other key is affected. -/
theorem store_object_dedup (hashFn : Bytes → String) (compressFn : Bytes → Bytes)
    (content : Bytes) (cache : Cache) :
    (store_object hashFn compressFn content cache).1 = shard_path (hashFn content)
    ∧ (store_object hashFn compressFn content
        ((store_object hashFn compressFn content cache).2)).1
      = (store_object hashFn compressFn content cache).1
    ∧ (store_object hashFn compressFn content
        ((store_object hashFn compressFn content cache).2)).2
      = (store_object hashFn compressFn content cache).2
    ∧ ((store_object hashFn compressFn content cache).2)
        ((store_object hashFn compressFn content cache).1) ≠ none
    ∧ (∀ k, k ≠ (store_object hashFn compressFn content cache).1 →
        ((store_object hashFn compressFn content cache).2) k = cache k) := by
  cases h : cache (shard_path (hashFn content)) with
  | some blob =>
      have h1 := store_object_hit hashFn compressFn content cache blob h
      refine ⟨by rw [h1], ?_, ?_, ?_, ?_⟩
      · simp [h1]
      · simp [h1]
      · simp [h1, h]
      · intro k hk
        simp [h1]
  | none =>
      have h1 := store_object_miss hashFn compressFn content cache h
      have h2 := store_object_hit hashFn compressFn content
        (fun k => if k = shard_path (hashFn content) then some (compressFn content)
                  else cache k)
        (compressFn content) (by simp)
      refine ⟨by rw [h1], ?_, ?_, ?_, ?_⟩
      · simp [h1, h2]
      · simp [h1, h2]
      · simp [h1]
      · intro k hk
        rw [h1] at hk
        simp only [] at hk
        simp [h1, hk]

/-- C4 counterexample: an index file whose top-level version is the JSON
value `true` — a value other than `1` — is accepted by `read_index`
(Python `True != 1` is `False`), so the version guard does not raise. -/
theorem read_index_version_true_accepted :
    read_index (some { version := some (.jbool true), entries := [] })
      = .ok { version := some (.jbool true), entries := [] } := rfl

/-- C4 (amended): `read_index` on a missing file returns the zero-value
index without raising; on an existing file it raises exactly when the
stored version is not equal to `1` under the language's numeric equality
(which identifies `true` and `1.0` with `1`), and otherwise returns the
data unchanged. -/
theorem read_index_spec :
    read_index none = .ok zeroIndex
    ∧ (∀ d : IndexData, pyVersionIsOne d.version = false →
        read_index (some d) = .error "Unsupported index version")
    ∧ (∀ d : IndexData, pyVersionIsOne d.version = true →
        read_index (some d) = .ok d) := by
  refine ⟨rfl, ?_, ?_⟩
  · intro d h
    simp [read_index, h]
  · intro d h
    simp [read_index, h]

theorem read_index_spec_witness :
    (pyVersionIsOne (some (JVal.str "2")) = false
      ∧ read_index (some { version := some (JVal.str "2"), entries := [] })
          = .error "Unsupported index version")
    ∧ (pyVersionIsOne (some (JVal.num 1)) = true
      ∧ read_index (some { version := some (JVal.num 1), entries := [] })
          = .ok { version := some (JVal.num 1), entries := [] }) :=
  ⟨⟨by decide, read_index_spec.2.1 _ (by decide)⟩,
   ⟨by decide, read_index_spec.2.2 _ (by decide)⟩⟩

theorem update_index_entries_nonempty (st : IndexFsState) (idx : IndexData)
    (updates : List (String × IndexEntry))
    (hread : read_index st.file = .ok idx) (hne : updates ≠ []) :
    update_index_entries st updates
      = .ok { file := some { idx with entries := dictUpdate idx.entries updates },
              writes := st.writes + 1 } := by
  unfold update_index_entries
  rw [if_neg (by simpa using hne), hread]
  rfl

theorem push_single_indexFs (hashFn : Bytes → String) (compressFn : Bytes → Bytes)
    (env : PushEnv) (priv dry_run : Bool) (rel : String) (content : Bytes)
    (mtime : Int) (st : PushState) :
    ((push_single_file_collect hashFn compressFn env priv dry_run rel content
        mtime st).2).indexFs = st.indexFs := by
  unfold push_single_file_collect
  repeat' split
  all_goals rfl

theorem push_single_cases (hashFn : Bytes → String) (compressFn : Bytes → Bytes)
    (env : PushEnv) (priv dry_run : Bool) (rel : String) (content : Bytes)
    (mtime : Int) (st : PushState) :
    (∃ e st', push_single_file_collect hashFn compressFn env priv dry_run rel
        content mtime st = ((0, some e), st'))
    ∨ (∃ st', push_single_file_collect hashFn compressFn env priv dry_run rel
        content mtime st = ((1, none), st')) := by
  unfold push_single_file_collect
  repeat' split
  all_goals first
    | exact Or.inl ⟨_, _, rfl⟩
    | exact Or.inr ⟨_, rfl⟩

theorem isEmpty_false_of_ne_nil {l : List α} (h : l ≠ []) : l.isEmpty = false := by
  cases l with
  | nil => exact absurd rfl h
  | cons a t => rfl

theorem dictUpdate_single_ne_nil (base : List (String × α)) (e : String × α) :
    dictUpdate base [e] ≠ [] := by
  cases base with
  | nil => simp [dictUpdate, dictLookup]
  | cons b bs => simp [dictUpdate]

theorem pushLoopStep_cases (hashFn : Bytes → String) (compressFn : Bytes → Bytes)
    (env : PushEnv) (priv dry_run : Bool)
    (acc : List (String × IndexEntry) × List String × PushState)
    (f : String × Bytes × Int) :
    (∃ e, pushLoopStep hashFn compressFn env priv dry_run acc f
        = (dictUpdate acc.1 [e], acc.2.1,
           (push_single_file_collect hashFn compressFn env priv dry_run f.1
             f.2.1 f.2.2 acc.2.2).2))
    ∨ pushLoopStep hashFn compressFn env priv dry_run acc f
        = (acc.1, acc.2.1 ++ [f.1],
           (push_single_file_collect hashFn compressFn env priv dry_run f.1
             f.2.1 f.2.2 acc.2.2).2) := by
  rcases push_single_cases hashFn compressFn env priv dry_run f.1 f.2.1 f.2.2
      acc.2.2 with ⟨e, st', hs⟩ | ⟨st', hs⟩
  · left
    refine ⟨e, ?_⟩
    unfold pushLoopStep
    rw [hs]
    simp
  · right
    unfold pushLoopStep
    rw [hs]
    simp

theorem pushLoop_indexFs (hashFn : Bytes → String) (compressFn : Bytes → Bytes)
    (env : PushEnv) (priv dry_run : Bool) (files : List (String × Bytes × Int))
    (acc : List (String × IndexEntry) × List String × PushState) :
    ((files.foldl (pushLoopStep hashFn compressFn env priv dry_run)
        acc).2.2).indexFs = acc.2.2.indexFs := by
  induction files generalizing acc with
  | nil => rfl
  | cons f t ih =>
      rw [List.foldl_cons, ih]
      rcases pushLoopStep_cases hashFn compressFn env priv dry_run acc f with
        ⟨e, hc⟩ | hc
      · rw [hc]
        simpa using push_single_indexFs hashFn compressFn env priv dry_run f.1
          f.2.1 f.2.2 acc.2.2
      · rw [hc]
        simpa using push_single_indexFs hashFn compressFn env priv dry_run f.1
          f.2.1 f.2.2 acc.2.2

theorem pushLoop_failed_mono (hashFn : Bytes → String) (compressFn : Bytes → Bytes)
    (env : PushEnv) (priv dry_run : Bool) (files : List (String × Bytes × Int))
    (acc : List (String × IndexEntry) × List String × PushState)
    (h : (files.foldl (pushLoopStep hashFn compressFn env priv dry_run)
        acc).2.1 = []) : acc.2.1 = [] := by
  induction files generalizing acc with
  | nil => exact h
  | cons f t ih =>
      rw [List.foldl_cons] at h
      have hstep := ih _ h
      rcases pushLoopStep_cases hashFn compressFn env priv dry_run acc f with
        ⟨e, hc⟩ | hc
      · rw [hc] at hstep
        simpa using hstep
      · rw [hc] at hstep
        simp at hstep

theorem pushLoop_updates_ne_nil (hashFn : Bytes → String)
    (compressFn : Bytes → Bytes) (env : PushEnv) (priv dry_run : Bool)
    (files : List (String × Bytes × Int))
    (acc : List (String × IndexEntry) × List String × PushState)
    (h : acc.1 ≠ []) :
    (files.foldl (pushLoopStep hashFn compressFn env priv dry_run) acc).1 ≠ [] := by
  induction files generalizing acc with
  | nil => exact h
  | cons f t ih =>
      rw [List.foldl_cons]
      apply ih
      rcases pushLoopStep_cases hashFn compressFn env priv dry_run acc f with
        ⟨e, hc⟩ | hc
      · rw [hc]
        simpa using dictUpdate_single_ne_nil acc.1 e
      · rw [hc]
        simpa using h

theorem pushLoop_success_updates (hashFn : Bytes → String)
    (compressFn : Bytes → Bytes) (env : PushEnv) (priv dry_run : Bool)
    (files : List (String × Bytes × Int))
    (acc : List (String × IndexEntry) × List String × PushState)
    (hne : files ≠ [])
    (hok : (files.foldl (pushLoopStep hashFn compressFn env priv dry_run)
        acc).2.1 = []) :
    (files.foldl (pushLoopStep hashFn compressFn env priv dry_run) acc).1 ≠ [] := by
  cases files with
  | nil => exact absurd rfl hne
  | cons f t =>
      rw [List.foldl_cons] at hok ⊢
      rcases pushLoopStep_cases hashFn compressFn env priv dry_run acc f with
        ⟨e, hc⟩ | hc
      · rw [hc]
        apply pushLoop_updates_ne_nil
        simpa using dictUpdate_single_ne_nil acc.1 e
      · exfalso
        rw [hc] at hok
        have hacc := pushLoop_failed_mono hashFn compressFn env priv dry_run t _ hok
        simp at hacc

/-- C5 counterexample: for the empty patch, `update_index_entries`
performs zero index-file writes (the function returns before taking the
lock), not exactly one, refuting the claim's "for every patch … exactly
one write". -/
theorem update_index_entries_empty_patch :
    update_index_entries { file := some zeroIndex, writes := 0 } []
      = .ok { file := some zeroIndex, writes := 0 }
    ∧ (0 : Nat) ≠ 1 :=
  ⟨rfl, by decide⟩

/-- C5 (amended): `update_index_entries` merges the patch over the prior
entries with the patch winning on every colliding path and, for a
non-empty patch, rewrites the index file exactly once (an empty patch is a
no-op with zero writes); consequently a directory push of N ≥ 1 files that
exits 0 without `--dry-run` rewrites the index exactly once. -/
theorem update_index_entries_batched :
    (∀ (st : IndexFsState) (idx : IndexData)
        (updates : List (String × IndexEntry)),
      read_index st.file = .ok idx → updates ≠ [] →
      ∃ d : IndexData,
        update_index_entries st updates
            = .ok { file := some d, writes := st.writes + 1 }
          ∧ ∀ p, dictLookup d.entries p
              = ((dictLookup updates p).or (dictLookup idx.entries p)))
    ∧ (∀ st : IndexFsState, update_index_entries st [] = .ok st)
    ∧ (∀ (hashFn : Bytes → String) (compressFn : Bytes → Bytes) (env : PushEnv)
        (files : List (String × Bytes × Int)) (priv : Bool) (st st' : PushState),
        cmd_push_dir hashFn compressFn env files priv false st = .ok (0, st') →
        files ≠ [] →
        st'.indexFs.writes = st.indexFs.writes + 1) := by
  refine ⟨?_, ?_, ?_⟩
  · intro st idx updates hread hne
    exact ⟨{ idx with entries := dictUpdate idx.entries updates },
      update_index_entries_nonempty st idx updates hread hne,
      fun p => dictLookup_dictUpdate idx.entries updates p⟩
  · intro st
    rfl
  · intro hashFn compressFn env files priv st st' hok hne
    unfold cmd_push_dir at hok
    simp only [] at hok
    generalize hL : files.foldl (pushLoopStep hashFn compressFn env priv false)
      ([], [], st) = L at hok
    obtain ⟨updates, failed, stacc⟩ := L
    cases failed with
    | cons a b => simp at hok
    | nil =>
        have hfail : (files.foldl (pushLoopStep hashFn compressFn env priv false)
            ([], [], st)).2.1 = [] := by rw [hL]
        have hupd0 := pushLoop_success_updates hashFn compressFn env priv false
          files ([], [], st) hne hfail
        rw [hL] at hupd0
        have hupd : updates ≠ [] := by simpa using hupd0
        have hwrites : stacc.indexFs = st.indexFs := by
          have hfs := pushLoop_indexFs hashFn compressFn env priv false files
            ([], [], st)
          rw [hL] at hfs
          simpa using hfs
        rw [if_neg (by simp)] at hok
        rw [if_pos (by exact ⟨trivial, isEmpty_false_of_ne_nil hupd⟩)] at hok
        cases hread : read_index stacc.indexFs.file with
        | error e =>
            have hue : update_index_entries stacc.indexFs updates = .error e := by
              unfold update_index_entries
              rw [if_neg (by simpa using hupd), hread]
              rfl
            rw [hue] at hok
            have hok2 : (Except.error e : Except String (Int × PushState))
                = .ok (0, st') := hok
            simp at hok2
        | ok idx =>
            rw [update_index_entries_nonempty _ idx _ hread hupd] at hok
            have hok2 : (Except.ok ((0 : Int),
                (⟨stacc.cache,
                  ⟨some ⟨idx.version, dictUpdate idx.entries updates⟩,
                   stacc.indexFs.writes + 1⟩⟩ : PushState)) :
                Except String (Int × PushState)) = .ok (0, st') := hok
            simp only [Except.ok.injEq, Prod.mk.injEq] at hok2
            obtain ⟨-, hst'⟩ := hok2
            rw [← hst']
            simp [hwrites]

theorem update_index_entries_batched_witness :
    ∃ d : IndexData,
      update_index_entries { file := some zeroIndex, writes := 0 }
          [("a", ({} : IndexEntry))]
        = .ok { file := some d, writes := 0 + 1 }
      ∧ ∀ p, dictLookup d.entries p
          = ((dictLookup [("a", ({} : IndexEntry))] p).or
             (dictLookup zeroIndex.entries p)) :=
  update_index_entries_batched.1 { file := some zeroIndex, writes := 0 }
    zeroIndex [("a", ({} : IndexEntry))] rfl (by simp)

theorem referencedKeys_mem (entries : List (String × IndexEntry)) (k : String) :
    k ∈ referencedKeys entries
      ↔ ∃ pe ∈ entries, pe.2.object_key = some k ∧ k ≠ "" := by
  unfold referencedKeys
  rw [List.mem_filterMap]
  constructor
  · rintro ⟨pe, hpe, hk⟩
    cases hko : pe.2.object_key with
    | none => rw [hko] at hk; simp at hk
    | some k0 =>
        rw [hko] at hk
        by_cases h0 : k0 = ""
        · simp [h0] at hk
        · simp [h0] at hk
          subst hk
          exact ⟨pe, hpe, hko, h0⟩
  · rintro ⟨pe, hpe, hko, hne⟩
    refine ⟨pe, hpe, ?_⟩
    rw [hko]
    simp [hne]

theorem cmd_clean_fst (entries : List (String × IndexEntry))
    (cacheKeys : List String) (dry_run yes confirmed : Bool) :
    (cmd_clean entries cacheKeys dry_run yes confirmed).1
      = clean_to_delete entries cacheKeys := by
  unfold cmd_clean
  simp only []
  repeat' split
  all_goals rfl

theorem cmd_clean_snd_cases (entries : List (String × IndexEntry))
    (cacheKeys : List String) (dry_run yes confirmed : Bool) :
    (cmd_clean entries cacheKeys dry_run yes confirmed).2 = cacheKeys
    ∨ (cmd_clean entries cacheKeys dry_run yes confirmed).2
        = cacheKeys.filter fun k => k ∈ referencedKeys entries := by
  unfold cmd_clean
  simp only []
  repeat' split
  all_goals first
    | exact Or.inl rfl
    | exact Or.inr rfl

/-- C7: garbage collection classifies as orphaned exactly the on-disk
blobs whose keys no index entry references; a blob referenced by at least
one entry always survives `cmd_clean`, and when the run is armed
(`dry_run = false`, `--yes`), every surviving blob is referenced. -/
theorem cmd_clean_gc (entries : List (String × IndexEntry))
    (cacheKeys : List String) (dry_run yes confirmed : Bool) (k : String) :
    (k ∈ (cmd_clean entries cacheKeys dry_run yes confirmed).1
      ↔ k ∈ cacheKeys ∧ ¬ ∃ pe ∈ entries, pe.2.object_key = some k ∧ k ≠ "")
    ∧ ((∃ pe ∈ entries, pe.2.object_key = some k ∧ k ≠ "") → k ∈ cacheKeys →
        k ∈ (cmd_clean entries cacheKeys dry_run yes confirmed).2)
    ∧ (dry_run = false → yes = true →
        k ∈ (cmd_clean entries cacheKeys dry_run yes confirmed).2 →
        ∃ pe ∈ entries, pe.2.object_key = some k ∧ k ≠ "") := by
  refine ⟨?_, ?_, ?_⟩
  · rw [cmd_clean_fst]
    unfold clean_to_delete
    rw [List.mem_filter]
    simp [referencedKeys_mem]
  · intro href hmem
    rcases cmd_clean_snd_cases entries cacheKeys dry_run yes confirmed with h2 | h2
    · rw [h2]; exact hmem
    · rw [h2, List.mem_filter]
      refine ⟨hmem, ?_⟩
      simpa [referencedKeys_mem] using href
  · intro hdry hyes hmem
    rw [← referencedKeys_mem]
    unfold cmd_clean at hmem
    rw [hdry, hyes] at hmem
    by_cases hempty : (clean_to_delete entries cacheKeys).isEmpty = true
    · rw [if_pos hempty] at hmem
      have hnil : clean_to_delete entries cacheKeys = [] := by
        simpa [List.isEmpty_iff] using hempty
      unfold clean_to_delete at hnil
      have hall := List.filter_eq_nil_iff.mp hnil
      have := hall k hmem
      simpa using this
    · rw [if_neg hempty] at hmem
      rw [if_neg (by simp)] at hmem
      rw [if_neg (by simp)] at hmem
      rw [List.mem_filter] at hmem
      simpa using hmem.2

theorem cmd_clean_gc_witness :
    "kk" ∈ (cmd_clean [("B", ({ object_key := some "kk" } : IndexEntry))]
      ["kk", "zz"] false true false).2 :=
  (cmd_clean_gc [("B", ({ object_key := some "kk" } : IndexEntry))]
      ["kk", "zz"] false true false "kk").2.1
    ⟨("B", ({ object_key := some "kk" } : IndexEntry)), by decide, rfl, by decide⟩
    (by decide)

theorem groupGet_groupInsert_same (g : List (String × List (String × String)))
    (r : String) (it : String × String) :
    dictLookup (groupInsert g r it) r = some (groupGet g r ++ [it]) := by
  induction g with
  | nil => simp [groupInsert, dictLookup, groupGet]
  | cons g0 gs ih =>
      by_cases h : g0.1 = r
      · simp [groupInsert, h, dictLookup, groupGet]
      · simp [groupInsert, h, dictLookup, groupGet, ih]

theorem groupGet_groupInsert_other (g : List (String × List (String × String)))
    (r r' : String) (it : String × String) (hne : r' ≠ r) :
    dictLookup (groupInsert g r it) r' = dictLookup g r' := by
  induction g with
  | nil =>
      simp only [groupInsert, dictLookup]
      rw [if_neg fun h => hne h.symm]
  | cons g0 gs ih =>
      unfold groupInsert
      by_cases h : g0.1 = r
      · rw [if_pos h]
        have hnr : ¬ g0.1 = r' := fun hh => hne (hh ▸ h)
        simp only [dictLookup]
        rw [if_neg hnr, if_neg hnr]
      · rw [if_neg h]
        simp only [dictLookup]
        by_cases h2 : g0.1 = r'
        · rw [if_pos h2, if_pos h2]
        · rw [if_neg h2, if_neg h2]
          exact ih

theorem mem_groupGet_fold (entries : List (String × IndexEntry))
    (acc : List (String × List (String × String))) (r : String)
    (x : String × String) :
    x ∈ groupGet (entries.foldl groupStep acc) r ↔
      x ∈ groupGet acc r
      ∨ ∃ pe ∈ entries, ∃ k, pe.2.object_key = some k ∧ k ≠ ""
          ∧ pe.2.remote.getD "r2" = r ∧ x = (k, pe.1) := by
  induction entries generalizing acc with
  | nil => simp
  | cons pe t ih =>
      rw [List.foldl_cons, ih]
      cases hko : pe.2.object_key with
      | none =>
          simp only [groupStep, hko, List.mem_cons]
          constructor
          · rintro (h | h)
            · exact Or.inl h
            · exact Or.inr (by
                rcases h with ⟨q, hq, hrest⟩
                exact ⟨q, Or.inr hq, hrest⟩)
          · rintro (h | ⟨q, hq | hq, k0, hk0, hrest⟩)
            · exact Or.inl h
            · exfalso
              rw [hq] at hk0
              rw [hko] at hk0
              simp at hk0
            · exact Or.inr ⟨q, hq, k0, hk0, hrest⟩
      | some k0 =>
          by_cases h0 : k0 = ""
          · simp only [groupStep, hko, if_pos h0, List.mem_cons]
            constructor
            · rintro (h | h)
              · exact Or.inl h
              · exact Or.inr (by
                  rcases h with ⟨q, hq, hrest⟩
                  exact ⟨q, Or.inr hq, hrest⟩)
            · rintro (h | ⟨q, hq | hq, k1, hk1, hne1, hrest⟩)
              · exact Or.inl h
              · exfalso
                rw [hq, hko] at hk1
                simp at hk1
                exact hne1 (hk1 ▸ h0)
              · exact Or.inr ⟨q, hq, k1, hk1, hne1, hrest⟩
          · simp only [groupStep, hko, if_neg h0]
            by_cases hr : pe.2.remote.getD "r2" = r
            · have hsame : groupGet (groupInsert acc (pe.2.remote.getD "r2")
                  (k0, pe.1)) r = groupGet acc r ++ [(k0, pe.1)] := by
                unfold groupGet
                rw [hr, groupGet_groupInsert_same]
                rfl
              rw [hsame]
              simp only [List.mem_append, List.mem_singleton, List.mem_cons]
              constructor
              · rintro ((h | h | h) | h)
                · exact Or.inl h
                · exact Or.inr ⟨pe, Or.inl rfl, k0, hko, h0, hr, h⟩
                · simp at h
                · rcases h with ⟨q, hq, hrest⟩
                  exact Or.inr ⟨q, Or.inr hq, hrest⟩
              · rintro (h | (⟨q, hq | hq, k1, hk1, hne1, hr1, hx⟩))
                · exact Or.inl (Or.inl h)
                · subst hq
                  rw [hko] at hk1
                  simp only [Option.some.injEq] at hk1
                  subst hk1
                  exact Or.inl (Or.inr (Or.inl hx))
                · exact Or.inr ⟨q, hq, k1, hk1, hne1, hr1, hx⟩
            · have hother : groupGet (groupInsert acc (pe.2.remote.getD "r2")
                  (k0, pe.1)) r = groupGet acc r := by
                unfold groupGet
                rw [groupGet_groupInsert_other _ _ _ _ fun h => hr h.symm]
              rw [hother]
              simp only [List.mem_cons]
              constructor
              · rintro (h | h)
                · exact Or.inl h
                · rcases h with ⟨q, hq, hrest⟩
                  exact Or.inr ⟨q, Or.inr hq, hrest⟩
              · rintro (h | ⟨q, hq | hq, k1, hk1, hne1, hr1, hx⟩)
                · exact Or.inl h
                · exfalso
                  rw [hq] at hr1
                  exact hr hr1
                · exact Or.inr ⟨q, hq, k1, hk1, hne1, hr1, hx⟩

/-- C2: every index entry emitted by `_push_single_file_collect` carries
the remote label of the spec's "private" remote (the source string
`"gdrive"`) exactly when the push was private, and otherwise the "primary"
label (`"r2"`); and an entry lacking the `remote` field is grouped under
the primary remote by `group_objects_by_remote`. -/
theorem push_remote_labels :
    (∀ (hashFn : Bytes → String) (compressFn : Bytes → Bytes) (env : PushEnv)
        (priv dry_run : Bool) (rel : String) (content : Bytes) (mtime : Int)
        (st : PushState) (pe : String × IndexEntry),
        (push_single_file_collect hashFn compressFn env priv dry_run rel content
            mtime st).1.2 = some pe →
        pe.2.remote = some (if priv then privateLabel else primaryLabel))
    ∧ (∀ (entries : List (String × IndexEntry)) (p : String) (e : IndexEntry)
        (k : String), (p, e) ∈ entries → e.remote = none →
        e.object_key = some k → k ≠ "" →
        (k, p) ∈ groupGet (group_objects_by_remote entries) primaryLabel) := by
  constructor
  · intro hashFn compressFn env priv dry_run rel content mtime st pe h
    unfold push_single_file_collect at h
    simp only [] at h
    repeat' split at h
    all_goals first
      | (simp only [Option.some.injEq] at h; rw [← h];
         simp_all [privateLabel, primaryLabel])
      | simp at h
  · intro entries p e k hmem hrem hko hne
    unfold group_objects_by_remote
    rw [mem_groupGet_fold]
    refine Or.inr ⟨(p, e), hmem, k, hko, hne, ?_, rfl⟩
    rw [hrem]
    rfl

theorem push_remote_labels_witness :
    ((("f", ({ hash := some "[1]", size := some 1, compressed_size := some 2,
               mtime := some 0, object_key := some "[1]",
               remote := some "gdrive" } : IndexEntry)) :
        String × IndexEntry).2.remote
      = some (if true then privateLabel else primaryLabel))
    ∧ ("kk", "p") ∈ groupGet (group_objects_by_remote
        [("p", ({ object_key := some "kk" } : IndexEntry))]) primaryLabel :=
  ⟨push_remote_labels.1 demoHash demoCompress ⟨false, false, false⟩ true true "f"
      [1] 0 ⟨fun _ => none, ⟨none, 0⟩⟩ _ rfl,
   push_remote_labels.2 [("p", ({ object_key := some "kk" } : IndexEntry))]
      "p" ({ object_key := some "kk" } : IndexEntry) "kk" (by decide) rfl rfl
      (by decide)⟩

/-- The condition under which one `materialize_workspace` iteration
records its entry's path as skipped: truthy object key, existing readable
destination whose hash differs from the indexed hash, and `force` off. -/
def stepSkips (hashFn : Bytes → String) (force : Bool) (e : IndexEntry)
    (wsp : Option WsFile) : Prop :=
  ∃ k c, e.object_key = some k ∧ k ≠ "" ∧ wsp = some (.readable c)
    ∧ some (hashFn c) ≠ e.hash ∧ force = false

theorem matLoadWrite_skipped (decompressFn : Bytes → Bytes) (cache : Cache)
    (dry_run : Bool) (rel key : String) (st : MatState) :
    (matLoadWrite decompressFn cache dry_run rel key st).skipped = st.skipped := by
  unfold matLoadWrite
  repeat' split
  all_goals rfl

theorem matLoadWrite_ws_other (decompressFn : Bytes → Bytes) (cache : Cache)
    (dry_run : Bool) (rel key : String) (st : MatState) (p : String)
    (hne : p ≠ rel) :
    (matLoadWrite decompressFn cache dry_run rel key st).ws p = st.ws p := by
  unfold matLoadWrite
  repeat' split
  all_goals simp [hne]

theorem matStep_ws_other (hashFn : Bytes → String) (decompressFn : Bytes → Bytes)
    (cache : Cache) (force dry_run : Bool) (st : MatState)
    (pe : String × IndexEntry) (p : String) (hne : pe.1 ≠ p) :
    (matStep hashFn decompressFn cache force dry_run st pe).ws p = st.ws p := by
  unfold matStep
  repeat' split
  all_goals first
    | rfl
    | exact matLoadWrite_ws_other decompressFn cache dry_run pe.1 _ st p
        fun hh => hne hh.symm

theorem matStep_skipped_mem (hashFn : Bytes → String)
    (decompressFn : Bytes → Bytes) (cache : Cache) (force dry_run : Bool)
    (st : MatState) (pe : String × IndexEntry) (x : String) :
    x ∈ (matStep hashFn decompressFn cache force dry_run st pe).skipped
      ↔ x ∈ st.skipped ∨ (x = pe.1 ∧ stepSkips hashFn force pe.2 (st.ws pe.1)) := by
  unfold matStep
  cases hko : pe.2.object_key with
  | none => simp [stepSkips, hko]
  | some k =>
      by_cases hk : k = ""
      · simp [stepSkips, hko, hk]
      · cases hws : st.ws pe.1 with
        | none => simp [stepSkips, hko, hk, hws, matLoadWrite_skipped]
        | some f =>
            cases f with
            | unreadable => simp [stepSkips, hko, hk, hws, matLoadWrite_skipped]
            | readable c =>
                by_cases hh : some (hashFn c) = pe.2.hash
                · simp [stepSkips, hko, hk, hws, hh]
                · by_cases hf : force = false
                  · simp [stepSkips, hko, hk, hws, hh, hf]
                  · simp [stepSkips, hko, hk, hws, hh, hf,
                      matLoadWrite_skipped]

theorem matGo_ws_not_mem (hashFn : Bytes → String) (decompressFn : Bytes → Bytes)
    (cache : Cache) (force dry_run : Bool) (entries : List (String × IndexEntry))
    (st : MatState) (p : String) (hp : p ∉ entries.map Prod.fst) :
    ((entries.foldl (matStep hashFn decompressFn cache force dry_run) st).ws p)
      = st.ws p := by
  induction entries generalizing st with
  | nil => rfl
  | cons pe t ih =>
      rw [List.map_cons] at hp
      simp only [List.mem_cons, not_or] at hp
      rw [List.foldl_cons, ih _ hp.2]
      exact matStep_ws_other hashFn decompressFn cache force dry_run st pe p
        fun hh => hp.1 hh.symm

theorem matGo_skipped_not_mem (hashFn : Bytes → String)
    (decompressFn : Bytes → Bytes) (cache : Cache) (force dry_run : Bool)
    (entries : List (String × IndexEntry)) (st : MatState) (p : String)
    (hp : p ∉ entries.map Prod.fst) :
    (p ∈ (entries.foldl (matStep hashFn decompressFn cache force dry_run)
        st).skipped ↔ p ∈ st.skipped) := by
  induction entries generalizing st with
  | nil => exact Iff.rfl
  | cons pe t ih =>
      rw [List.map_cons] at hp
      simp only [List.mem_cons, not_or] at hp
      rw [List.foldl_cons, ih _ hp.2, matStep_skipped_mem]
      simp [hp.1]

theorem matGo_skip_branch (hashFn : Bytes → String)
    (decompressFn : Bytes → Bytes) (cache : Cache) (force dry_run : Bool)
    (entries : List (String × IndexEntry)) (st : MatState) (p : String)
    (e : IndexEntry) (k : String) (c : Bytes)
    (hnodup : (entries.map Prod.fst).Nodup) (hmem : (p, e) ∈ entries)
    (hko : e.object_key = some k) (hk : k ≠ "")
    (hws : st.ws p = some (.readable c)) (hdiff : some (hashFn c) ≠ e.hash)
    (hforce : force = false) :
    ((entries.foldl (matStep hashFn decompressFn cache force dry_run) st).ws p
      = st.ws p)
    ∧ p ∈ (entries.foldl (matStep hashFn decompressFn cache force dry_run)
        st).skipped := by
  induction entries generalizing st with
  | nil => simp at hmem
  | cons pe t ih =>
      rw [List.map_cons, List.nodup_cons] at hnodup
      rw [List.foldl_cons]
      rcases List.mem_cons.mp hmem with heq | hmem2
      · subst heq
        have hpt : p ∉ t.map Prod.fst := by simpa using hnodup.1
        have hstep : matStep hashFn decompressFn cache force dry_run st (p, e)
            = { st with skipped := st.skipped ++ [p] } := by
          unfold matStep
          simp only [hko]
          rw [if_neg hk, hws]
          simp only []
          rw [if_neg hdiff, if_pos hforce]
        rw [hstep]
        constructor
        · rw [matGo_ws_not_mem hashFn decompressFn cache force dry_run t _ p hpt]
        · rw [matGo_skipped_not_mem hashFn decompressFn cache force dry_run t _ p
            hpt]
          simp
      · have hpt : pe.1 ≠ p := by
          intro hh
          exact hnodup.1 (hh ▸ List.mem_map_of_mem Prod.fst hmem2)
        have hws2 : (matStep hashFn decompressFn cache force dry_run st pe).ws p
            = some (.readable c) := by
          rw [matStep_ws_other hashFn decompressFn cache force dry_run st pe p
            hpt]
          exact hws
        have hrec := ih _ hnodup.2 hmem2 hws2
        refine ⟨?_, hrec.2⟩
        rw [hrec.1, hws2, hws]

theorem matGo_overwrite_branch (hashFn : Bytes → String)
    (decompressFn : Bytes → Bytes) (cache : Cache) (force dry_run : Bool)
    (entries : List (String × IndexEntry)) (st : MatState) (p : String)
    (e : IndexEntry) (k : String) (blob : Bytes)
    (hnodup : (entries.map Prod.fst).Nodup) (hmem : (p, e) ∈ entries)
    (hko : e.object_key = some k) (hk : k ≠ "")
    (hblob : cache k = some blob) (hdry : dry_run = false)
    (hcase : st.ws p = some .unreadable ∨ st.ws p = none
      ∨ (∃ c, st.ws p = some (.readable c) ∧ some (hashFn c) ≠ e.hash
          ∧ force = true)) :
    ((entries.foldl (matStep hashFn decompressFn cache force dry_run) st).ws p
      = some (.readable (decompressFn blob)))
    ∧ (p ∈ (entries.foldl (matStep hashFn decompressFn cache force dry_run)
        st).skipped ↔ p ∈ st.skipped) := by
  induction entries generalizing st with
  | nil => simp at hmem
  | cons pe t ih =>
      rw [List.map_cons, List.nodup_cons] at hnodup
      rw [List.foldl_cons]
      rcases List.mem_cons.mp hmem with heq | hmem2
      · subst heq
        have hpt : p ∉ t.map Prod.fst := by simpa using hnodup.1
        have hload : matLoadWrite decompressFn cache dry_run p k st
            = { st with
                ws := fun q => if q = p then
                    some (.readable (decompressFn blob)) else st.ws q,
                written := st.written + 1,
                bytesWritten := st.bytesWritten + (decompressFn blob).length } := by
          unfold matLoadWrite
          simp only [load_object, hblob]
          simp only [Option.map]
          rw [if_neg (by simp [hdry])]
        have hstep : matStep hashFn decompressFn cache force dry_run st (p, e)
            = { st with
                ws := fun q => if q = p then
                    some (.readable (decompressFn blob)) else st.ws q,
                written := st.written + 1,
                bytesWritten := st.bytesWritten + (decompressFn blob).length } := by
          unfold matStep
          simp only [hko]
          rw [if_neg hk]
          rcases hcase with hcw | hcw | ⟨c, hcw, hdiffc, hforce⟩
          · rw [hcw]
            simp only []
            exact hload
          · rw [hcw]
            simp only []
            exact hload
          · rw [hcw]
            simp only []
            rw [if_neg hdiffc, if_neg (by simp [hforce])]
            exact hload
        rw [hstep]
        constructor
        · rw [matGo_ws_not_mem hashFn decompressFn cache force dry_run t _ p hpt]
          simp
        · rw [matGo_skipped_not_mem hashFn decompressFn cache force dry_run t _ p
            hpt]
      · have hpt : pe.1 ≠ p := by
          intro hh
          exact hnodup.1 (hh ▸ List.mem_map_of_mem Prod.fst hmem2)
        have hws2 : (matStep hashFn decompressFn cache force dry_run st pe).ws p
            = st.ws p := matStep_ws_other hashFn decompressFn cache force dry_run
          st pe p hpt
        have hcase2 : (matStep hashFn decompressFn cache force dry_run st pe).ws p
              = some .unreadable
            ∨ (matStep hashFn decompressFn cache force dry_run st pe).ws p = none
            ∨ (∃ c, (matStep hashFn decompressFn cache force dry_run st pe).ws p
                = some (.readable c) ∧ some (hashFn c) ≠ e.hash
                ∧ force = true) := by
          rw [hws2]
          exact hcase
        have hrec := ih _ hnodup.2 hmem2 hcase2
        refine ⟨hrec.1, ?_⟩
        have hne2 : ¬ (p = pe.1) := fun hh => hpt hh.symm
        rw [hrec.2, matStep_skipped_mem]
        simp [hne2]

/-- C1: for an index entry whose destination exists with content hashing
differently from the indexed hash, `materialize_workspace` with
`force = false` leaves the destination untouched and records the path in
the returned skipped list (for any `dry_run`), while `force = true`
overwrites the destination with the decompressed cached object. -/
theorem materialize_safety (hashFn : Bytes → String)
    (decompressFn : Bytes → Bytes) (entries : List (String × IndexEntry))
    (ws : Workspace) (cache : Cache) (p : String) (e : IndexEntry) (k : String)
    (c : Bytes)
    (hnodup : (entries.map Prod.fst).Nodup) (hmem : (p, e) ∈ entries)
    (hko : e.object_key = some k) (hk : k ≠ "")
    (hws : ws p = some (.readable c)) (hdiff : some (hashFn c) ≠ e.hash) :
    (∀ dry_run : Bool,
      (materialize_workspace hashFn decompressFn entries ws cache false
          dry_run).ws p = ws p
      ∧ p ∈ (materialize_workspace hashFn decompressFn entries ws cache false
          dry_run).skipped)
    ∧ (∀ blob : Bytes, cache k = some blob →
      (materialize_workspace hashFn decompressFn entries ws cache true
          false).ws p = some (.readable (decompressFn blob))) := by
  constructor
  · intro dry_run
    exact matGo_skip_branch hashFn decompressFn cache false dry_run entries
      { ws := ws, written := 0, bytesWritten := 0, skipped := [] } p e k c
      hnodup hmem hko hk hws hdiff rfl
  · intro blob hblob
    exact (matGo_overwrite_branch hashFn decompressFn cache true false entries
      { ws := ws, written := 0, bytesWritten := 0, skipped := [] } p e k blob
      hnodup hmem hko hk hblob rfl
      (Or.inr (Or.inr ⟨c, hws, hdiff, rfl⟩))).1

theorem materialize_safety_witness :
    (((materialize_workspace demoHash demoDecompress [("P", matDemoEntry)]
        matDemoWs matDemoCache false false).ws "P" = matDemoWs "P")
      ∧ "P" ∈ (materialize_workspace demoHash demoDecompress
          [("P", matDemoEntry)] matDemoWs matDemoCache false false).skipped)
    ∧ (materialize_workspace demoHash demoDecompress [("P", matDemoEntry)]
        matDemoWs matDemoCache true false).ws "P"
      = some (.readable (demoDecompress (demoCompress [50]))) :=
  ⟨(materialize_safety demoHash demoDecompress [("P", matDemoEntry)] matDemoWs
      matDemoCache "P" matDemoEntry "kk" [49, 49] (by decide) (by decide) rfl
      (by decide) (by decide) (by decide)).1 false,
   (materialize_safety demoHash demoDecompress [("P", matDemoEntry)] matDemoWs
      matDemoCache "P" matDemoEntry "kk" [49, 49] (by decide) (by decide) rfl
      (by decide) (by decide) (by decide)).2 (demoCompress [50]) (by decide)⟩

/-- C10: when the destination file exists but hashing it raises an I/O
error, `materialize_workspace` proceeds to load the cached object and
overwrite the destination even with `force = false`, and the path is not
recorded in the skipped list. -/
theorem materialize_unreadable_overwrites (hashFn : Bytes → String)
    (decompressFn : Bytes → Bytes) (entries : List (String × IndexEntry))
    (ws : Workspace) (cache : Cache) (p : String) (e : IndexEntry) (k : String)
    (blob : Bytes)
    (hnodup : (entries.map Prod.fst).Nodup) (hmem : (p, e) ∈ entries)
    (hko : e.object_key = some k) (hk : k ≠ "")
    (hws : ws p = some .unreadable) (hblob : cache k = some blob) :
    (materialize_workspace hashFn decompressFn entries ws cache false false).ws p
      = some (.readable (decompressFn blob))
    ∧ p ∉ (materialize_workspace hashFn decompressFn entries ws cache false
        false).skipped := by
  have h := matGo_overwrite_branch hashFn decompressFn cache false false entries
    { ws := ws, written := 0, bytesWritten := 0, skipped := [] } p e k blob
    hnodup hmem hko hk hblob rfl (Or.inl hws)
  refine ⟨h.1, ?_⟩
  intro hmemskip
  have hinit := h.2.mp hmemskip
  simp at hinit

theorem materialize_unreadable_overwrites_witness :
    (materialize_workspace demoHash demoDecompress [("P", matDemoEntry)]
        matDemoWsU matDemoCache false false).ws "P"
      = some (.readable (demoDecompress (demoCompress [50])))
    ∧ "P" ∉ (materialize_workspace demoHash demoDecompress [("P", matDemoEntry)]
        matDemoWsU matDemoCache false false).skipped :=
  materialize_unreadable_overwrites demoHash demoDecompress [("P", matDemoEntry)]
    matDemoWsU matDemoCache "P" matDemoEntry "kk" (demoCompress [50])
    (by decide) (by decide) rfl (by decide) (by decide) (by decide)

theorem key_unique {l : List (String × α)} (hnodup : (l.map Prod.fst).Nodup)
    {p : String} {a b : α} (h1 : (p, a) ∈ l) (h2 : (p, b) ∈ l) : a = b := by
  induction l with
  | nil => simp at h1
  | cons x t ih =>
      rw [List.map_cons, List.nodup_cons] at hnodup
      rcases List.mem_cons.mp h1 with e1 | m1
      · rcases List.mem_cons.mp h2 with e2 | m2
        · have hab : (p, a) = (p, b) := e1.trans e2.symm
          simpa using hab
        · exfalso
          apply hnodup.1
          have hpmem : p ∈ List.map Prod.fst t := by
            simpa using List.mem_map_of_mem Prod.fst m2
          rw [← e1]
          exact hpmem
      · rcases List.mem_cons.mp h2 with e2 | m2
        · exfalso
          apply hnodup.1
          have hpmem : p ∈ List.map Prod.fst t := by
            simpa using List.mem_map_of_mem Prod.fst m1
          rw [← e2]
          exact hpmem
        · exact ih hnodup.2 m1 m2

theorem status_to_hash_mem (entries : List (String × IndexEntry))
    (ws : StatWorkspace) (q : String) (e : IndexEntry) :
    (q, e) ∈ status_to_hash entries ws ↔
      (q, e) ∈ entries ∧ ∃ f, ws q = some f
        ∧ (some f.size ≠ e.size ∨ some f.mtime ≠ e.mtime) := by
  unfold status_to_hash
  rw [List.mem_filterMap]
  constructor
  · rintro ⟨pe, hpe, hmatch⟩
    cases hw : ws pe.1 with
    | none => rw [hw] at hmatch; simp at hmatch
    | some f =>
        rw [hw] at hmatch
        simp only [] at hmatch
        by_cases hcond : some f.size ≠ pe.2.size ∨ some f.mtime ≠ pe.2.mtime
        · rw [if_pos hcond] at hmatch
          simp only [Option.some.injEq] at hmatch
          subst hmatch
          exact ⟨hpe, f, hw, hcond⟩
        · rw [if_neg hcond] at hmatch
          simp at hmatch
  · rintro ⟨hmem, f, hw, hcond⟩
    refine ⟨(q, e), hmem, ?_⟩
    simp only []
    rw [hw]
    simp only []
    rw [if_pos hcond]

theorem status_modified_mem (hashFn : Bytes → String)
    (entries : List (String × IndexEntry)) (ws : StatWorkspace) (p : String) :
    p ∈ status_modified hashFn entries ws ↔
      ∃ e f, (p, e) ∈ status_to_hash entries ws ∧ ws p = some f
        ∧ (f.content = none
           ∨ ∃ c, f.content = some c ∧ some (hashFn c) ≠ e.hash) := by
  unfold status_modified
  rw [List.mem_filterMap]
  constructor
  · rintro ⟨pe, hpe, hmatch⟩
    cases hw : ws pe.1 with
    | none => rw [hw] at hmatch; simp at hmatch
    | some f =>
        rw [hw] at hmatch
        simp only [] at hmatch
        cases hc : f.content with
        | none =>
            rw [hc] at hmatch
            simp only [Option.some.injEq] at hmatch
            subst hmatch
            exact ⟨pe.2, f, by simpa using hpe, hw, Or.inl hc⟩
        | some c =>
            rw [hc] at hmatch
            simp only [] at hmatch
            by_cases hh : some (hashFn c) ≠ pe.2.hash
            · rw [if_pos hh] at hmatch
              simp only [Option.some.injEq] at hmatch
              subst hmatch
              exact ⟨pe.2, f, by simpa using hpe, hw, Or.inr ⟨c, hc, hh⟩⟩
            · rw [if_neg hh] at hmatch
              simp at hmatch
  · rintro ⟨e, f, hpe, hw, hcond⟩
    refine ⟨(p, e), hpe, ?_⟩
    simp only []
    rw [hw]
    simp only []
    rcases hcond with hc | ⟨c, hc, hh⟩
    · rw [hc]
    · rw [hc]
      simp only []
      rw [if_pos hh]

/-- C8 counterexample: an indexed file that exists in the workspace, whose
mtime fingerprint changed, and whose hashing raises an I/O error, is
classified modified by `compute_status` although no recomputed content
hash differs from the indexed one (none exists). -/
theorem compute_status_error_modified :
    (compute_status demoHash [("a", csDemoEntry)] csDemoWs).2 = ["a"]
    ∧ csDemoWs "a" = some { size := 1, mtime := 5, content := none } :=
  ⟨rfl, rfl⟩

/-- C8 (amended): `compute_status` classifies an existing indexed path as
modified only if rehashing it failed with an I/O error or the recomputed
hash differs from the indexed hash; a file whose size and mtime both match
the index is never queued for rehash nor classified modified, and a
readable file whose recomputed hash matches is not classified modified
even when its mtime changed. -/
theorem compute_status_modified_spec (hashFn : Bytes → String)
    (entries : List (String × IndexEntry)) (ws : StatWorkspace) :
    (∀ p, p ∈ (compute_status hashFn entries ws).2 →
      ∃ e f, (p, e) ∈ entries ∧ ws p = some f
        ∧ (f.content = none
           ∨ ∃ c, f.content = some c ∧ some (hashFn c) ≠ e.hash))
    ∧ (∀ p e f, (entries.map Prod.fst).Nodup → (p, e) ∈ entries →
        ws p = some f → some f.size = e.size → some f.mtime = e.mtime →
        (p, e) ∉ status_to_hash entries ws
          ∧ p ∉ (compute_status hashFn entries ws).2)
    ∧ (∀ p e f c, (entries.map Prod.fst).Nodup → (p, e) ∈ entries →
        ws p = some f → f.content = some c → some (hashFn c) = e.hash →
        p ∉ (compute_status hashFn entries ws).2) := by
  refine ⟨?_, ?_, ?_⟩
  · intro p hmem
    rcases (status_modified_mem hashFn entries ws p).mp hmem with
      ⟨e, f, hth, hw, hcond⟩
    exact ⟨e, f, ((status_to_hash_mem entries ws p e).mp hth).1, hw, hcond⟩
  · intro p e f hnodup hmem hw hsize hmtime
    constructor
    · intro hth
      rcases (status_to_hash_mem entries ws p e).mp hth with ⟨-, f2, hw2, hcond⟩
      rw [hw] at hw2
      simp only [Option.some.injEq] at hw2
      subst hw2
      rcases hcond with hc | hc
      · exact hc hsize
      · exact hc hmtime
    · intro hmod
      rcases (status_modified_mem hashFn entries ws p).mp hmod with
        ⟨e2, f2, hth, hw2, hcond⟩
      have hmem2 := ((status_to_hash_mem entries ws p e2).mp hth).1
      have he : e2 = e := key_unique hnodup hmem2 hmem
      subst he
      rcases (status_to_hash_mem entries ws p e2).mp hth with ⟨-, f3, hw3, hcond3⟩
      rw [hw] at hw3
      simp only [Option.some.injEq] at hw3
      subst hw3
      rcases hcond3 with hc | hc
      · exact hc hsize
      · exact hc hmtime
  · intro p e f c hnodup hmem hw hc hh hmod
    rcases (status_modified_mem hashFn entries ws p).mp hmod with
      ⟨e2, f2, hth, hw2, hcond⟩
    have hmem2 := ((status_to_hash_mem entries ws p e2).mp hth).1
    have he : e2 = e := key_unique hnodup hmem2 hmem
    subst he
    rw [hw] at hw2
    simp only [Option.some.injEq] at hw2
    subst hw2
    rcases hcond with hcc | ⟨c2, hc2, hh2⟩
    · rw [hc] at hcc
      simp at hcc
    · rw [hc] at hc2
      simp only [Option.some.injEq] at hc2
      subst hc2
      exact hh2 hh

theorem compute_status_modified_spec_witness :
    (("b", ({ hash := some "H", size := some 1, mtime := some 9 } : IndexEntry))
        ∉ status_to_hash
          [("b", ({ hash := some "H", size := some 1, mtime := some 9 } :
            IndexEntry))]
          (fun q => if q = "b" then
              some { size := 1, mtime := 9, content := none } else none))
    ∧ "b" ∉ (compute_status demoHash
        [("b", ({ hash := some "H", size := some 1, mtime := some 9 } :
          IndexEntry))]
        (fun q => if q = "b" then
            some { size := 1, mtime := 9, content := none } else none)).2 :=
  (compute_status_modified_spec demoHash
      [("b", ({ hash := some "H", size := some 1, mtime := some 9 } :
        IndexEntry))]
      (fun q => if q = "b" then
          some { size := 1, mtime := 9, content := none } else none)).2.1
    "b" ({ hash := some "H", size := some 1, mtime := some 9 } : IndexEntry)
    ({ size := 1, mtime := 9, content := none } : StatFile)
    (by decide) (by decide) rfl rfl rfl

/-- C3 (the code at the failing input): with one `r2` and one `gdrive`
entry and no Drive token, `cmd_pull` downloads and materializes the
primary file, does not download or materialize the private object, and
returns exit code 0 — but the only message emitted for the private group
is the count-free `skipDriveNoAuth` notice, so no skipped-private count is
reported anywhere. -/
theorem cmd_pull_skips_private_without_auth :
    pullDemoRun.exitCode = 0
    ∧ pullDemoRun.ws "file_r2.bin" = some (.readable [7, 7])
    ∧ pullDemoRun.ws "file_gdrive.bin" = none
    ∧ pullDemoRun.cache "ef/gh/gdh" = none
    ∧ pullDemoRun.msgs = [.downloadingHttp 1, .downloading 1 "gdrive",
        .skipDriveNoAuth, .wrote 1 2] := by
  refine ⟨rfl, rfl, rfl, rfl, rfl⟩

end VLFS
